import Mathlib

set_option maxRecDepth 1000000

/-!
Verification development for the CAN-bus tool's core: the bit-level signal
codec (`extract_bits` / `insert_bits` / `sign_extend` from
`src/decode/decoder.rs`), the signal decoder/encoder (`SignalDecoder`),
and the DBC schema, parser and serializer (`src/core/dbc.rs`).

Bytes of a CAN payload are modelled as `Nat`s (values of Rust `u8`, always
`< 256` at the type boundary); machine-integer truncations (`as u8`,
`u64` shifts) are made explicit with `% 256` / `% 2^64` at the places the
Rust code performs a narrowing cast or a shift that can drop high bits.
`f64` signal scaling is modelled over `Rat` (the factor/offset values the
DBC grammar produces are decimal rationals, on which Rust's `f64`
arithmetic for the claims below is exact).
-/

/-- Byte order for signal encoding (`ByteOrder` in `src/core/dbc.rs`). -/
inductive ByteOrder where
  | Motorola
  | Intel
deriving DecidableEq, Repr

/-- Value type for signals (`ValueType` in `src/core/dbc.rs`). -/
inductive ValueType where
  | Signed
  | Unsigned
deriving DecidableEq, Repr

/-- `dbc_motorola_to_position` from `src/decode/decoder.rs`:
byte = `dbc_bit / 8`, bit-in-byte = `7 - (dbc_bit % 8)`. -/
def dbc_motorola_to_position (dbc_bit : Nat) : Nat × Nat :=
  (dbc_bit / 8, 7 - dbc_bit % 8)

/-- The `while` loop of `extract_bits`.  `fuel` is a termination bound only:
each iteration of the Rust loop consumes `min bits_remaining (8 - current_bit)
≥ 1` bits (the loop invariant keeps `current_bit < 8`), so starting the fuel
at `bit_length = bits_remaining` makes the model agree with the source loop
on every reachable state.  Arguments after `bit_length` are
`bits_remaining`, `current_byte`, `current_bit`, `result`. -/
def extractLoop (data : List Nat) (bit_length : Nat) :
    Nat → Nat → Nat → Nat → Nat → Nat
  | 0, _, _, _, result => result
  | fuel + 1, bits_remaining, current_byte, current_bit, result =>
    if 0 < bits_remaining ∧ current_byte < data.length then
      let bits_to_read := min bits_remaining (8 - current_bit)
      -- Rust: `(((1u32 << bits_to_read) - 1) << current_bit) as u8`
      let mask := ((((1 : Nat) <<< bits_to_read) - 1) <<< current_bit) % 256
      let bits := (data.getD current_byte 0 &&& mask) >>> current_bit
      let shift := bit_length - bits_remaining
      let result' := result ||| (bits <<< shift)
      if 8 ≤ current_bit + bits_to_read then
        extractLoop data bit_length fuel (bits_remaining - bits_to_read)
          (current_byte + 1) 0 result'
      else
        extractLoop data bit_length fuel (bits_remaining - bits_to_read)
          current_byte (current_bit + bits_to_read) result'
    else result

/-- `extract_bits` from `src/decode/decoder.rs`. -/
def extract_bits (data : List Nat) (start_bit bit_length : Nat)
    (byte_order : ByteOrder) : Option Nat :=
  if data = [] ∨ bit_length = 0 ∨ 64 < bit_length then none
  else
    let pos : Nat × Nat :=
      match byte_order with
      | ByteOrder.Intel => (start_bit / 8, start_bit % 8)
      | ByteOrder.Motorola => dbc_motorola_to_position start_bit
    if data.length ≤ pos.1 then none
    else some (extractLoop data bit_length bit_length bit_length pos.1 pos.2 0)

/-- The `while` loop of `insert_bits`; same fuel discipline as
`extractLoop`.  Arguments after `data` are `bits_remaining`,
`current_byte`, `current_bit`, `value_shift`. -/
def insertLoop (value : Nat) :
    List Nat → Nat → Nat → Nat → Nat → Nat → List Nat
  | data, 0, _, _, _, _ => data
  | data, fuel + 1, bits_remaining, current_byte, current_bit, value_shift =>
    if 0 < bits_remaining ∧ current_byte < data.length then
      let bits_to_write := min bits_remaining (8 - current_bit)
      -- Rust: `((1u64 << bits_to_write) - 1) << value_shift` (u64)
      let mask := ((((1 : Nat) <<< bits_to_write) - 1) <<< value_shift) % 2 ^ 64
      -- Rust: `((value & mask) >> value_shift) as u8`
      let bits := ((value &&& mask) >>> value_shift) % 256
      -- Rust: `!((((1u32 << bits_to_write) - 1) << current_bit) as u8)`
      let clear_mask := 255 ^^^ ((((1 : Nat) <<< bits_to_write) - 1) <<< current_bit) % 256
      let newByte := (data.getD current_byte 0 &&& clear_mask) ||| ((bits <<< current_bit) % 256)
      let data' := data.set current_byte newByte
      if 8 ≤ current_bit + bits_to_write then
        insertLoop value data' fuel (bits_remaining - bits_to_write)
          (current_byte + 1) 0 (value_shift + bits_to_write)
      else
        insertLoop value data' fuel (bits_remaining - bits_to_write)
          current_byte (current_bit + bits_to_write) (value_shift + bits_to_write)
    else data

/-- `insert_bits` from `src/decode/decoder.rs`.  The Rust function mutates
`data` and returns a `bool`; the model returns the success flag together
with the resulting buffer. -/
def insert_bits (data : List Nat) (value : Nat) (start_bit bit_length : Nat)
    (byte_order : ByteOrder) : Bool × List Nat :=
  if data = [] ∨ bit_length = 0 ∨ 64 < bit_length then (false, data)
  else
    let pos : Nat × Nat :=
      match byte_order with
      | ByteOrder.Intel => (start_bit / 8, start_bit % 8)
      | ByteOrder.Motorola => dbc_motorola_to_position start_bit
    if data.length ≤ pos.1 then (false, data)
    else (true, insertLoop value data bit_length bit_length pos.1 pos.2 0)

/-- `sign_extend` from `src/decode/decoder.rs` (u64 semantics: the
complement `!((1u64 << bit_length) - 1)` is `(2^64 - 1) ^^^ ((1 <<<
bit_length) - 1)`). -/
def sign_extend (value : Nat) (bit_length : Nat) : Nat :=
  if 64 ≤ bit_length then value
  else
    let sign_bit := (1 : Nat) <<< (bit_length - 1)
    if value &&& sign_bit ≠ 0 then
      let mask := ((2 ^ 64 - 1) : Nat) ^^^ (((1 : Nat) <<< bit_length) - 1)
      value ||| mask
    else value

/-- Flat bit index `i` of a byte buffer: bit `i % 8` of byte `i / 8`
(little-endian bit numbering inside each byte, bytes in increasing order);
bits past the end of the buffer read as `false`. -/
def bitAt (data : List Nat) (i : Nat) : Bool :=
  (data.getD (i / 8) 0).testBit (i % 8)

/-- The spec's description of extraction: the unsigned integer formed by
concatenating `n` bits of the buffer starting at flat bit position `pos`,
least-significant extracted bit at result bit 0. -/
def readBits (data : List Nat) : Nat → Nat → Nat
  | _, 0 => 0
  | pos, n + 1 => (bitAt data pos).toNat + 2 * readBits data (pos + 1) n

/-- The flat bit position at which extraction/insertion starts, as implied
by `start_bit` and the byte order (for Motorola this is the transformed
position of `dbc_motorola_to_position`). -/
def flatStart (byte_order : ByteOrder) (start_bit : Nat) : Nat :=
  match byte_order with
  | ByteOrder.Intel => start_bit
  | ByteOrder.Motorola => 8 * (start_bit / 8) + (7 - start_bit % 8)
/-- `readBits` always produces a value below `2 ^ n`. -/
theorem readBits_lt (data : List Nat) (pos n : Nat) : readBits data pos n < 2 ^ n := by
  induction n generalizing pos with
  | zero => simp [readBits]
  | succ k ih =>
    have h := ih (pos + 1)
    simp only [readBits, Nat.pow_succ]
    cases bitAt data pos <;> simp [Bool.toNat] <;> omega

/-- Bits at or past the end of the buffer read as zero. -/
theorem readBits_of_oob (data : List Nat) (pos n : Nat)
    (h : data.length ≤ pos / 8) : readBits data pos n = 0 := by
  induction n generalizing pos with
  | zero => rfl
  | succ k ih =>
    have hb : bitAt data pos = false := by
      unfold bitAt
      rw [List.getD_eq_default _ _ h]
      simp
    have hnext : data.length ≤ (pos + 1) / 8 :=
      le_trans h (Nat.div_le_div_right (Nat.le_succ pos))
    simp [readBits, hb, ih (pos + 1) hnext]

/-- Splitting a flat read into a first chunk and a remainder. -/
theorem readBits_split (data : List Nat) (a : Nat) :
    ∀ (pos b : Nat), readBits data pos (a + b) =
      readBits data pos a + 2 ^ a * readBits data (pos + a) b := by
  induction a with
  | zero => simp [readBits]
  | succ k ih =>
    intro pos b
    have h1 : k + 1 + b = (k + b) + 1 := by omega
    rw [h1]
    simp only [readBits]
    rw [ih (pos + 1) b]
    have h2 : pos + 1 + k = pos + (k + 1) := by omega
    rw [h2]
    ring

/-- If the `n` flat bits starting at `pos` agree with the low bits of `v`,
the flat read recovers `v % 2 ^ n`. -/
theorem readBits_of_testBit (data : List Nat) :
    ∀ (n : Nat) (v pos : Nat), (∀ k, k < n → bitAt data (pos + k) = v.testBit k) →
      readBits data pos n = v % 2 ^ n := by
  intro n
  induction n with
  | zero => intro v pos _; simp [readBits, Nat.mod_one]
  | succ m ih =>
    intro v pos h
    have h0 : bitAt data pos = v.testBit 0 := by simpa using h 0 (by omega)
    have hrest : ∀ k, k < m → bitAt data (pos + 1 + k) = (v / 2).testBit k := by
      intro k hk
      rw [Nat.testBit_div_two]
      have := h (k + 1) (by omega)
      have harg : pos + 1 + k = pos + (k + 1) := by omega
      rw [harg]
      exact this
    have hih := ih (v / 2) (pos + 1) hrest
    simp only [readBits, hih]
    have hb : (bitAt data pos).toNat = v % 2 := by
      rw [h0, Nat.testBit_zero]
      rcases Nat.mod_two_eq_zero_or_one v with h2 | h2 <;> simp [h2]
    rw [hb]
    have hlt : v / 2 % 2 ^ m < 2 ^ m := Nat.mod_lt _ (Nat.two_pow_pos m)
    have hmod : v % 2 ^ (m + 1) = v % 2 + 2 * (v / 2 % 2 ^ m) := by
      conv_lhs => rw [← Nat.div_add_mod v 2]
      rw [Nat.pow_succ, Nat.mul_comm (2 ^ m) 2]
      rw [Nat.add_mod, Nat.mul_mod_mul_left]
      have hv2 : v % 2 < 2 := Nat.mod_lt v (by omega)
      have hsmall : v % 2 % (2 * 2 ^ m) = v % 2 :=
        Nat.mod_eq_of_lt (by have := Nat.two_pow_pos m; omega)
      rw [hsmall, Nat.mod_eq_of_lt (by omega)]
      omega
    omega

/-- Accumulating into disjoint high bits is addition. -/
theorem lor_shiftLeft_add (res bits n : Nat) (h : res < 2 ^ n) :
    res ||| (bits <<< n) = res + bits * 2 ^ n := by
  rw [Nat.shiftLeft_eq]
  have := Nat.mul_add_lt_is_or h bits
  rw [Nat.lor_comm, Nat.mul_comm (2 ^ n) bits] at this
  omega

/-- The in-byte mask of the loops fits in a byte when the chunk stays inside it. -/
theorem mask_mod_256 (k cbit : Nat) (h : cbit + k ≤ 8) :
    ((((1 : Nat) <<< k) - 1) <<< cbit) % 256 = ((2 ^ k - 1) : Nat) <<< cbit := by
  rw [Nat.one_shiftLeft]
  apply Nat.mod_eq_of_lt
  rw [Nat.shiftLeft_eq]
  calc (2 ^ k - 1) * 2 ^ cbit < 2 ^ k * 2 ^ cbit := by
        have := Nat.two_pow_pos k
        have := Nat.two_pow_pos cbit
        exact Nat.mul_lt_mul_of_lt_of_le (by omega) (le_refl _) (by omega)
    _ = 2 ^ (k + cbit) := by rw [← Nat.pow_add]
    _ ≤ 2 ^ 8 := Nat.pow_le_pow_right (by omega) (by omega)

/-- Mask-and-shift chunk read from one byte is a shifted mod. -/
theorem byte_chunk (byte k cbit : Nat) :
    (byte &&& ((2 ^ k - 1) <<< cbit)) >>> cbit = (byte >>> cbit) % 2 ^ k := by
  apply Nat.eq_of_testBit_eq
  intro i
  simp only [Nat.testBit_shiftRight, Nat.testBit_and, Nat.testBit_shiftLeft,
    Nat.testBit_mod_two_pow, Nat.testBit_two_pow_sub_one]
  have : cbit ≤ cbit + i := by omega
  simp [this, Nat.add_sub_cancel_left, Bool.and_comm]
/-- One-byte chunk of a flat read, as the loops compute it. -/
theorem readBits_byte (data : List Nat) (cb cbit k : Nat) (h8 : cbit + k ≤ 8) :
    readBits data (8 * cb + cbit) k = ((data.getD cb 0) >>> cbit) % 2 ^ k := by
  apply readBits_of_testBit
  intro j hj
  unfold bitAt
  have hdiv : (8 * cb + cbit + j) / 8 = cb := by omega
  have hmod : (8 * cb + cbit + j) % 8 = cbit + j := by omega
  rw [hdiv, hmod, Nat.testBit_shiftRight]

/-- The extraction loop accumulates exactly the flat read of the remaining
bits, shifted past the bits already gathered in `res`. -/
theorem extractLoop_eq (data : List Nat) (bl : Nat) :
    ∀ (fuel br cb cbit res : Nat), cbit < 8 → br ≤ fuel → br ≤ bl →
      res < 2 ^ (bl - br) →
      extractLoop data bl fuel br cb cbit res =
        res + 2 ^ (bl - br) * readBits data (8 * cb + cbit) br := by
  intro fuel
  induction fuel with
  | zero =>
    intro br cb cbit res h8 hfuel hbl hres
    have hbr : br = 0 := by omega
    subst hbr
    simp [extractLoop, readBits]
  | succ f ih =>
    intro br cb cbit res h8 hfuel hbl hres
    by_cases hguard : 0 < br ∧ cb < data.length
    · obtain ⟨hbr, hcb⟩ := hguard
      rw [show extractLoop data bl (f + 1) br cb cbit res =
        (if 0 < br ∧ cb < data.length then
          let k := min br (8 - cbit)
          let mask := ((((1 : Nat) <<< k) - 1) <<< cbit) % 256
          let bits := (data.getD cb 0 &&& mask) >>> cbit
          let shift := bl - br
          let res' := res ||| (bits <<< shift)
          if 8 ≤ cbit + k then
            extractLoop data bl f (br - k) (cb + 1) 0 res'
          else
            extractLoop data bl f (br - k) cb (cbit + k) res'
        else res) from rfl]
      rw [if_pos ⟨hbr, hcb⟩]
      simp only []
      set k := min br (8 - cbit) with hkdef
      have hk1 : 1 ≤ k := by omega
      have hk8 : cbit + k ≤ 8 := by omega
      have hkbr : k ≤ br := min_le_left _ _
      set byte := data.getD cb 0 with hbyte
      set s := bl - br with hs
      -- the chunk the iteration reads
      have hmask := mask_mod_256 k cbit hk8
      have hbits : (byte &&& ((((1 : Nat) <<< k) - 1) <<< cbit) % 256) >>> cbit
          = (byte >>> cbit) % 2 ^ k := by
        rw [hmask, byte_chunk]
      have hbitslt : (byte >>> cbit) % 2 ^ k < 2 ^ k := Nat.mod_lt _ (Nat.two_pow_pos k)
      -- the accumulator after the iteration
      have hres' : res ||| (((byte &&& ((((1 : Nat) <<< k) - 1) <<< cbit) % 256) >>> cbit) <<< s)
          = res + ((byte >>> cbit) % 2 ^ k) * 2 ^ s := by
        rw [hbits, lor_shiftLeft_add _ _ _ hres]
      have hexp : bl - (br - k) = s + k := by omega
      have hpow : 2 ^ (s + k) = 2 ^ s * 2 ^ k := pow_add 2 s k
      have hres'lt : res + ((byte >>> cbit) % 2 ^ k) * 2 ^ s < 2 ^ (bl - (br - k)) := by
        rw [hexp]
        have h1 : ((byte >>> cbit) % 2 ^ k) * 2 ^ s ≤ (2 ^ k - 1) * 2 ^ s :=
          Nat.mul_le_mul_right _ (by omega)
        have h2 : (2 ^ k - 1) * 2 ^ s + 2 ^ s = 2 ^ (s + k) := by
          rw [Nat.sub_mul, one_mul]
          have hle : 2 ^ s ≤ 2 ^ k * 2 ^ s :=
            Nat.le_mul_of_pos_left _ (Nat.two_pow_pos k)
          rw [Nat.sub_add_cancel hle, hpow]
          ring
        omega
      -- the split of the remaining flat read
      have hsplit : readBits data (8 * cb + cbit) br =
          (byte >>> cbit) % 2 ^ k + 2 ^ k * readBits data (8 * cb + cbit + k) (br - k) := by
        conv_lhs => rw [show br = k + (br - k) by omega]
        rw [readBits_split, readBits_byte data cb cbit k hk8, hbyte]
      by_cases hcarry : 8 ≤ cbit + k
      · rw [if_pos hcarry]
        have hceq : cbit + k = 8 := by omega
        rw [hres']
        rw [ih (br - k) (cb + 1) 0 _ (by omega) (by omega) (by omega) hres'lt]
        rw [hexp, hsplit, hpow]
        have hposeq : 8 * (cb + 1) + 0 = 8 * cb + cbit + k := by omega
        rw [hposeq]
        ring
      · rw [if_neg hcarry]
        rw [hres']
        rw [ih (br - k) cb (cbit + k) _ (by omega) (by omega) (by omega) hres'lt]
        rw [hexp, hsplit, hpow]
        have hposeq : 8 * cb + (cbit + k) = 8 * cb + cbit + k := by omega
        rw [hposeq]
        ring
    · rw [show extractLoop data bl (f + 1) br cb cbit res =
        (if 0 < br ∧ cb < data.length then
          let k := min br (8 - cbit)
          let mask := ((((1 : Nat) <<< k) - 1) <<< cbit) % 256
          let bits := (data.getD cb 0 &&& mask) >>> cbit
          let shift := bl - br
          let res' := res ||| (bits <<< shift)
          if 8 ≤ cbit + k then
            extractLoop data bl f (br - k) (cb + 1) 0 res'
          else
            extractLoop data bl f (br - k) cb (cbit + k) res'
        else res) from rfl]
      rw [if_neg hguard]
      rcases Nat.eq_zero_or_pos br with hbr | hbr
      · subst hbr
        simp [readBits]
      · have hcb : data.length ≤ cb := by omega
        rw [readBits_of_oob data _ br (by omega)]
        omega
/-- Reading back the byte the insertion loop just wrote. -/
theorem getD_set_self (l : List Nat) (i b : Nat) (h : i < l.length) :
    (l.set i b).getD i 0 = b := by
  rw [List.getD_eq_getElem?_getD, List.getElem?_set_self (by simpa using h)]
  rfl

/-- Reading any other byte after the insertion loop wrote one. -/
theorem getD_set_other (l : List Nat) (i j b : Nat) (h : i ≠ j) :
    (l.set i b).getD j 0 = l.getD j 0 := by
  rw [List.getD_eq_getElem?_getD, List.getElem?_set_ne h, ← List.getD_eq_getElem?_getD]

/-- The u64 value mask of `insert_bits` does not wrap while the written
window stays inside 64 bits. -/
theorem mask_mod_2pow64 (k vs : Nat) (h : vs + k ≤ 64) :
    ((((1 : Nat) <<< k) - 1) <<< vs) % 2 ^ 64 = ((2 ^ k - 1) : Nat) <<< vs := by
  rw [Nat.one_shiftLeft]
  apply Nat.mod_eq_of_lt
  rw [Nat.shiftLeft_eq]
  calc (2 ^ k - 1) * 2 ^ vs < 2 ^ k * 2 ^ vs := by
        have := Nat.two_pow_pos k
        have := Nat.two_pow_pos vs
        exact Nat.mul_lt_mul_of_lt_of_le (by omega) (le_refl _) (by omega)
    _ = 2 ^ (k + vs) := by rw [← Nat.pow_add]
    _ ≤ 2 ^ 64 := Nat.pow_le_pow_right (by omega) (by omega)

/-- Bit `t` of the byte the insertion loop writes: inside the window
`[cbit, cbit + k)` it is the corresponding bit of `value`, outside it the
old byte's bit survives the mask-clear-then-OR. -/
theorem newByte_testBit (old value k cbit vs t : Nat)
    (h8 : cbit + k ≤ 8) (ht : t < 8) (hvs : vs + k ≤ 64) :
    ((old &&& (255 ^^^ ((((1 : Nat) <<< k) - 1) <<< cbit) % 256)) |||
        (((((value &&& ((((1 : Nat) <<< k) - 1) <<< vs) % 2 ^ 64) >>> vs) % 256) <<< cbit) % 256)).testBit t
      = if cbit ≤ t ∧ t < cbit + k then value.testBit (vs + (t - cbit))
        else old.testBit t := by
  rw [mask_mod_2pow64 k vs hvs, mask_mod_256 k cbit h8, byte_chunk]
  have hbits_lt : (value >>> vs) % 2 ^ k < 2 ^ k := Nat.mod_lt _ (Nat.two_pow_pos k)
  have hk8 : (2 : Nat) ^ k ≤ 2 ^ 8 := Nat.pow_le_pow_right (by omega) (by omega)
  have h256 : ((value >>> vs) % 2 ^ k) % 256 = (value >>> vs) % 2 ^ k :=
    Nat.mod_eq_of_lt (by norm_num at hk8 ⊢; omega)
  rw [h256]
  have hshift_lt : ((value >>> vs) % 2 ^ k) <<< cbit < 256 := by
    rw [Nat.shiftLeft_eq]
    calc ((value >>> vs) % 2 ^ k) * 2 ^ cbit < 2 ^ k * 2 ^ cbit :=
          Nat.mul_lt_mul_of_lt_of_le hbits_lt (le_refl _) (Nat.two_pow_pos cbit)
      _ = 2 ^ (k + cbit) := by rw [← Nat.pow_add]
      _ ≤ 2 ^ 8 := Nat.pow_le_pow_right (by omega) (by omega)
      _ = 256 := by norm_num
  rw [Nat.mod_eq_of_lt hshift_lt]
  have h255 : (255 : Nat) = 2 ^ 8 - 1 := by norm_num
  simp only [Nat.testBit_or, Nat.testBit_and, Nat.testBit_xor, Nat.testBit_shiftLeft,
    Nat.testBit_mod_two_pow, Nat.testBit_two_pow_sub_one, h255, Nat.testBit_shiftRight]
  by_cases hin : cbit ≤ t ∧ t < cbit + k
  · rw [if_pos hin]
    have h1 : t - cbit < k := by omega
    simp [hin.1, hin.2, h1, ht, Nat.add_comm vs (t - cbit)]
  · rw [if_neg hin]
    by_cases hlo : t < cbit
    · have hn : ¬ cbit ≤ t := by omega
      simp [hn, ht]
    · have h1 : cbit ≤ t := by omega
      have h2 : ¬ (t - cbit < k) := by omega
      simp [h1, h2, ht]
/-- The insertion loop keeps the buffer length and rewrites exactly the flat
bits `[8*cb+cbit, 8*cb+cbit+br)` that lie inside the buffer with the bits of
`value` starting at `value_shift`; every other bit is untouched. -/
theorem insertLoop_spec (value : Nat) :
    ∀ (fuel : Nat) (data : List Nat) (br cb cbit vs : Nat), cbit < 8 → br ≤ fuel →
      vs + br ≤ 64 →
      (insertLoop value data fuel br cb cbit vs).length = data.length ∧
      ∀ i, bitAt (insertLoop value data fuel br cb cbit vs) i =
        if 8 * cb + cbit ≤ i ∧ i < 8 * cb + cbit + br ∧ i / 8 < data.length
        then value.testBit (vs + (i - (8 * cb + cbit)))
        else bitAt data i := by
  intro fuel
  induction fuel with
  | zero =>
    intro data br cb cbit vs h8 hfuel hvs
    have hbr : br = 0 := by omega
    subst hbr
    refine ⟨rfl, ?_⟩
    intro i
    rw [if_neg (by omega)]
    rfl
  | succ f ih =>
    intro data br cb cbit vs h8 hfuel hvs
    by_cases hguard : 0 < br ∧ cb < data.length
    · obtain ⟨hbr, hcb⟩ := hguard
      rw [show insertLoop value data (f + 1) br cb cbit vs =
        (if 0 < br ∧ cb < data.length then
          (if 8 ≤ cbit + min br (8 - cbit) then
            insertLoop value
              (data.set cb
                ((data.getD cb 0 &&&
                    (255 ^^^ ((((1 : Nat) <<< min br (8 - cbit)) - 1) <<< cbit) % 256)) |||
                  (((((value &&& ((((1 : Nat) <<< min br (8 - cbit)) - 1) <<< vs) % 2 ^ 64) >>> vs)
                      % 256) <<< cbit) % 256)))
              f (br - min br (8 - cbit)) (cb + 1) 0 (vs + min br (8 - cbit))
          else
            insertLoop value
              (data.set cb
                ((data.getD cb 0 &&&
                    (255 ^^^ ((((1 : Nat) <<< min br (8 - cbit)) - 1) <<< cbit) % 256)) |||
                  (((((value &&& ((((1 : Nat) <<< min br (8 - cbit)) - 1) <<< vs) % 2 ^ 64) >>> vs)
                      % 256) <<< cbit) % 256)))
              f (br - min br (8 - cbit)) cb (cbit + min br (8 - cbit)) (vs + min br (8 - cbit)))
        else data) from rfl]
      rw [if_pos ⟨hbr, hcb⟩]
      set k := min br (8 - cbit) with hkdef
      have hk1 : 1 ≤ k := by omega
      have hk8 : cbit + k ≤ 8 := by omega
      have hkbr : k ≤ br := min_le_left _ _
      set NB := (data.getD cb 0 &&&
          (255 ^^^ ((((1 : Nat) <<< k) - 1) <<< cbit) % 256)) |||
        (((((value &&& ((((1 : Nat) <<< k) - 1) <<< vs) % 2 ^ 64) >>> vs) % 256) <<< cbit) % 256)
        with hNB
      have hvs2 : vs + k ≤ 64 := by omega
      have hlen' : (data.set cb NB).length = data.length := List.length_set data cb NB
      -- bit view of the written byte
      have hbset : ∀ i, bitAt (data.set cb NB) i =
          if 8 * cb + cbit ≤ i ∧ i < 8 * cb + cbit + k ∧ i / 8 < data.length
          then value.testBit (vs + (i - (8 * cb + cbit)))
          else bitAt data i := by
        intro i
        by_cases hib : i / 8 = cb
        · unfold bitAt
          rw [hib, getD_set_self data cb NB hcb, hNB]
          rw [newByte_testBit (data.getD cb 0) value k cbit vs (i % 8) hk8
            (Nat.mod_lt i (by omega)) hvs2]
          by_cases hin : cbit ≤ i % 8 ∧ i % 8 < cbit + k
          · rw [if_pos hin, if_pos (by omega)]
            have : i % 8 - cbit = i - (8 * cb + cbit) := by omega
            rw [this]
          · rw [if_neg hin, if_neg (by omega)]
        · unfold bitAt
          rw [getD_set_other data cb (i / 8) NB (Ne.symm hib)]
          rw [if_neg (by intro hcond; exact hib (by omega))]
      by_cases hcarry : 8 ≤ cbit + k
      · rw [if_pos hcarry]
        have hceq : cbit + k = 8 := by omega
        obtain ⟨ihlen, ihbit⟩ := ih (data.set cb NB) (br - k) (cb + 1) 0 (vs + k)
          (by omega) (by omega) (by omega)
        refine ⟨by rw [ihlen, hlen'], ?_⟩
        intro i
        rw [ihbit i, hlen', hbset i]
        by_cases hc1 : 8 * (cb + 1) + 0 ≤ i ∧ i < 8 * (cb + 1) + 0 + (br - k) ∧
            i / 8 < data.length
        · rw [if_pos hc1]
          have hfull : 8 * cb + cbit ≤ i ∧ i < 8 * cb + cbit + br ∧ i / 8 < data.length := by
            omega
          rw [if_pos hfull]
          congr 1
          omega
        · rw [if_neg hc1]
          by_cases hc2 : 8 * cb + cbit ≤ i ∧ i < 8 * cb + cbit + k ∧ i / 8 < data.length
          · rw [if_pos hc2]
            have hfull : 8 * cb + cbit ≤ i ∧ i < 8 * cb + cbit + br ∧ i / 8 < data.length := by
              omega
            rw [if_pos hfull]
          · rw [if_neg hc2]
            rw [if_neg (by omega)]
      · rw [if_neg hcarry]
        obtain ⟨ihlen, ihbit⟩ := ih (data.set cb NB) (br - k) cb (cbit + k) (vs + k)
          (by omega) (by omega) (by omega)
        refine ⟨by rw [ihlen, hlen'], ?_⟩
        intro i
        rw [ihbit i, hlen', hbset i]
        by_cases hc1 : 8 * cb + (cbit + k) ≤ i ∧ i < 8 * cb + (cbit + k) + (br - k) ∧
            i / 8 < data.length
        · rw [if_pos hc1]
          have hfull : 8 * cb + cbit ≤ i ∧ i < 8 * cb + cbit + br ∧ i / 8 < data.length := by
            omega
          rw [if_pos hfull]
          congr 1
          omega
        · rw [if_neg hc1]
          by_cases hc2 : 8 * cb + cbit ≤ i ∧ i < 8 * cb + cbit + k ∧ i / 8 < data.length
          · rw [if_pos hc2]
            have hfull : 8 * cb + cbit ≤ i ∧ i < 8 * cb + cbit + br ∧ i / 8 < data.length := by
              omega
            rw [if_pos hfull]
          · rw [if_neg hc2]
            rw [if_neg (by omega)]
    · rw [show insertLoop value data (f + 1) br cb cbit vs =
        (if 0 < br ∧ cb < data.length then
          (if 8 ≤ cbit + min br (8 - cbit) then
            insertLoop value
              (data.set cb
                ((data.getD cb 0 &&&
                    (255 ^^^ ((((1 : Nat) <<< min br (8 - cbit)) - 1) <<< cbit) % 256)) |||
                  (((((value &&& ((((1 : Nat) <<< min br (8 - cbit)) - 1) <<< vs) % 2 ^ 64) >>> vs)
                      % 256) <<< cbit) % 256)))
              f (br - min br (8 - cbit)) (cb + 1) 0 (vs + min br (8 - cbit))
          else
            insertLoop value
              (data.set cb
                ((data.getD cb 0 &&&
                    (255 ^^^ ((((1 : Nat) <<< min br (8 - cbit)) - 1) <<< cbit) % 256)) |||
                  (((((value &&& ((((1 : Nat) <<< min br (8 - cbit)) - 1) <<< vs) % 2 ^ 64) >>> vs)
                      % 256) <<< cbit) % 256)))
              f (br - min br (8 - cbit)) cb (cbit + min br (8 - cbit)) (vs + min br (8 - cbit)))
        else data) from rfl]
      rw [if_neg hguard]
      refine ⟨rfl, ?_⟩
      intro i
      rcases Nat.eq_zero_or_pos br with hbr0 | hbr0
      · rw [if_neg (by omega)]
      · have hcb : data.length ≤ cb := by omega
        rw [if_neg (by omega)]
/-- In both byte orders the starting bit-in-byte is below 8 and the flat
start position decomposes as `8 * (start_bit / 8) + bit_in_byte`. -/
theorem flatStart_decomp (order : ByteOrder) (s : Nat) :
    flatStart order s = 8 * (s / 8) +
      (match order with
       | ByteOrder.Intel => s % 8
       | ByteOrder.Motorola => 7 - s % 8) := by
  cases order with
  | Intel => show s = 8 * (s / 8) + s % 8; omega
  | Motorola => rfl

/-- On valid arguments, `extract_bits` returns exactly the flat read of
`bit_length` bits starting at the position implied by `start_bit` and the
byte order. -/
theorem extract_bits_some (data : List Nat) (s bl : Nat) (order : ByteOrder)
    (h1 : data ≠ []) (h2 : 0 < bl) (h3 : bl ≤ 64) (h4 : s / 8 < data.length) :
    extract_bits data s bl order = some (readBits data (flatStart order s) bl) := by
  have hg : ¬ (data = [] ∨ bl = 0 ∨ 64 < bl) := by
    push_neg
    exact ⟨h1, by omega, by omega⟩
  cases order with
  | Intel =>
    show (if data = [] ∨ bl = 0 ∨ 64 < bl then none
      else if data.length ≤ s / 8 then none
      else some (extractLoop data bl bl bl (s / 8) (s % 8) 0)) = _
    rw [if_neg hg, if_neg (by omega)]
    rw [extractLoop_eq data bl bl bl (s / 8) (s % 8) 0
      (Nat.mod_lt s (by omega)) (le_refl bl) (le_refl bl)
      (by simp [Nat.sub_self])]
    rw [Nat.sub_self, pow_zero, one_mul, Nat.zero_add]
    have hpos : 8 * (s / 8) + s % 8 = s := by omega
    rw [hpos]
    rfl
  | Motorola =>
    show (if data = [] ∨ bl = 0 ∨ 64 < bl then none
      else if data.length ≤ s / 8 then none
      else some (extractLoop data bl bl bl (s / 8) (7 - s % 8) 0)) = _
    rw [if_neg hg, if_neg (by omega)]
    rw [extractLoop_eq data bl bl bl (s / 8) (7 - s % 8) 0
      (by omega) (le_refl bl) (le_refl bl) (by simp [Nat.sub_self])]
    rw [Nat.sub_self, pow_zero, one_mul, Nat.zero_add]
    rfl

/-- `extract_bits` fails exactly on an empty payload, a zero or oversized
bit length, or a starting byte index out of bounds. -/
theorem extract_bits_none_iff (data : List Nat) (s bl : Nat) (order : ByteOrder) :
    extract_bits data s bl order = none ↔
      (data = [] ∨ bl = 0 ∨ 64 < bl ∨ data.length ≤ s / 8) := by
  by_cases hg : data = [] ∨ bl = 0 ∨ 64 < bl
  · constructor
    · intro _
      tauto
    · intro _
      unfold extract_bits
      rw [if_pos hg]
  · by_cases hh : data.length ≤ s / 8
    · constructor
      · intro _
        tauto
      · intro _
        cases order with
        | Intel =>
          show (if data = [] ∨ bl = 0 ∨ 64 < bl then none
            else if data.length ≤ s / 8 then none
            else some (extractLoop data bl bl bl (s / 8) (s % 8) 0)) = none
          rw [if_neg hg, if_pos hh]
        | Motorola =>
          show (if data = [] ∨ bl = 0 ∨ 64 < bl then none
            else if data.length ≤ s / 8 then none
            else some (extractLoop data bl bl bl (s / 8) (7 - s % 8) 0)) = none
          rw [if_neg hg, if_pos hh]
    · push_neg at hg
      have := extract_bits_some data s bl order hg.1 (by omega) (by omega) (by omega)
      rw [this]
      simp
      push_neg
      exact ⟨hg.1, by omega, by omega, by omega⟩

/-- Companion bound: a successful extraction fits in `bit_length` bits. -/
theorem extract_bits_lt (data : List Nat) (s bl : Nat) (order : ByteOrder) (rv : Nat)
    (h : extract_bits data s bl order = some rv) : rv < 2 ^ bl := by
  by_cases hg : data = [] ∨ bl = 0 ∨ 64 < bl ∨ data.length ≤ s / 8
  · rw [(extract_bits_none_iff data s bl order).2 hg] at h
    cases h
  · push_neg at hg
    rw [extract_bits_some data s bl order hg.1 (by omega) (by omega) (by omega)] at h
    have := readBits_lt data (flatStart order s) bl
    cases h
    exact this

/-- `insert_bits` fails exactly under the conditions of
`extract_bits_none_iff`, and then returns the untouched buffer. -/
theorem insert_bits_false_iff (data : List Nat) (value s bl : Nat) (order : ByteOrder) :
    ((insert_bits data value s bl order).1 = false ↔
      (data = [] ∨ bl = 0 ∨ 64 < bl ∨ data.length ≤ s / 8)) ∧
    ((insert_bits data value s bl order).1 = false →
      (insert_bits data value s bl order).2 = data) := by
  by_cases hg : data = [] ∨ bl = 0 ∨ 64 < bl
  · unfold insert_bits
    rw [if_pos hg]
    exact ⟨⟨fun _ => by tauto, fun _ => rfl⟩, fun _ => rfl⟩
  · cases order with
    | Intel =>
      by_cases hh : data.length ≤ s / 8
      · rw [show insert_bits data value s bl ByteOrder.Intel =
          (if data = [] ∨ bl = 0 ∨ 64 < bl then (false, data)
           else if data.length ≤ s / 8 then (false, data)
           else (true, insertLoop value data bl bl (s / 8) (s % 8) 0)) from rfl]
        rw [if_neg hg, if_pos hh]
        exact ⟨⟨fun _ => by tauto, fun _ => rfl⟩, fun _ => rfl⟩
      · rw [show insert_bits data value s bl ByteOrder.Intel =
          (if data = [] ∨ bl = 0 ∨ 64 < bl then (false, data)
           else if data.length ≤ s / 8 then (false, data)
           else (true, insertLoop value data bl bl (s / 8) (s % 8) 0)) from rfl]
        rw [if_neg hg, if_neg hh]
        refine ⟨⟨fun hfalse => by simp at hfalse, fun hcond => ?_⟩, fun hfalse => by simp at hfalse⟩
        exfalso
        tauto
    | Motorola =>
      by_cases hh : data.length ≤ s / 8
      · rw [show insert_bits data value s bl ByteOrder.Motorola =
          (if data = [] ∨ bl = 0 ∨ 64 < bl then (false, data)
           else if data.length ≤ s / 8 then (false, data)
           else (true, insertLoop value data bl bl (s / 8) (7 - s % 8) 0)) from rfl]
        rw [if_neg hg, if_pos hh]
        exact ⟨⟨fun _ => by tauto, fun _ => rfl⟩, fun _ => rfl⟩
      · rw [show insert_bits data value s bl ByteOrder.Motorola =
          (if data = [] ∨ bl = 0 ∨ 64 < bl then (false, data)
           else if data.length ≤ s / 8 then (false, data)
           else (true, insertLoop value data bl bl (s / 8) (7 - s % 8) 0)) from rfl]
        rw [if_neg hg, if_neg hh]
        refine ⟨⟨fun hfalse => by simp at hfalse, fun hcond => ?_⟩, fun hfalse => by simp at hfalse⟩
        exfalso
        tauto

/-- On valid arguments `insert_bits` succeeds and rewrites exactly the flat
bits `[flatStart, flatStart + bit_length)` that lie inside the buffer. -/
theorem insert_bits_spec (data : List Nat) (value s bl : Nat) (order : ByteOrder)
    (h1 : data ≠ []) (h2 : 0 < bl) (h3 : bl ≤ 64) (h4 : s / 8 < data.length) :
    (insert_bits data value s bl order).1 = true ∧
    (insert_bits data value s bl order).2.length = data.length ∧
    ∀ i, bitAt (insert_bits data value s bl order).2 i =
      if flatStart order s ≤ i ∧ i < flatStart order s + bl ∧ i / 8 < data.length
      then value.testBit (i - flatStart order s)
      else bitAt data i := by
  have hg : ¬ (data = [] ∨ bl = 0 ∨ 64 < bl) := by
    push_neg
    exact ⟨h1, by omega, by omega⟩
  cases order with
  | Intel =>
    rw [show insert_bits data value s bl ByteOrder.Intel =
      (if data = [] ∨ bl = 0 ∨ 64 < bl then (false, data)
       else if data.length ≤ s / 8 then (false, data)
       else (true, insertLoop value data bl bl (s / 8) (s % 8) 0)) from rfl]
    rw [if_neg hg, if_neg (by omega)]
    obtain ⟨hlen, hbit⟩ := insertLoop_spec value bl data bl (s / 8) (s % 8) 0
      (Nat.mod_lt s (by omega)) (le_refl bl) (by omega)
    refine ⟨rfl, hlen, ?_⟩
    intro i
    have hq : 8 * (s / 8) + s % 8 = flatStart ByteOrder.Intel s := by
      show _ = s
      omega
    rw [show (true, insertLoop value data bl bl (s / 8) (s % 8) 0).2 =
      insertLoop value data bl bl (s / 8) (s % 8) 0 from rfl]
    rw [hbit i, hq]
    rcases Nat.lt_or_ge i (flatStart ByteOrder.Intel s) with hlt | hge
    · rw [if_neg (by omega), if_neg (by omega)]
    · by_cases hc : flatStart ByteOrder.Intel s ≤ i ∧ i < flatStart ByteOrder.Intel s + bl ∧
          i / 8 < data.length
      · rw [if_pos hc, if_pos hc]
        rw [Nat.zero_add]
      · rw [if_neg hc, if_neg hc]
  | Motorola =>
    rw [show insert_bits data value s bl ByteOrder.Motorola =
      (if data = [] ∨ bl = 0 ∨ 64 < bl then (false, data)
       else if data.length ≤ s / 8 then (false, data)
       else (true, insertLoop value data bl bl (s / 8) (7 - s % 8) 0)) from rfl]
    rw [if_neg hg, if_neg (by omega)]
    obtain ⟨hlen, hbit⟩ := insertLoop_spec value bl data bl (s / 8) (7 - s % 8) 0
      (by omega) (le_refl bl) (by omega)
    refine ⟨rfl, hlen, ?_⟩
    intro i
    have hq : 8 * (s / 8) + (7 - s % 8) = flatStart ByteOrder.Motorola s := rfl
    rw [show (true, insertLoop value data bl bl (s / 8) (7 - s % 8) 0).2 =
      insertLoop value data bl bl (s / 8) (7 - s % 8) 0 from rfl]
    rw [hbit i, hq]
    by_cases hc : flatStart ByteOrder.Motorola s ≤ i ∧ i < flatStart ByteOrder.Motorola s + bl ∧
        i / 8 < data.length
    · rw [if_pos hc, if_pos hc]
      rw [Nat.zero_add]
    · rw [if_neg hc, if_neg hc]

/-- Round trip at the flat-position level: inserting `value` and reading it
back recovers `value` whenever the whole transformed window lies inside the
buffer. -/
theorem roundtrip_flat (data : List Nat) (value s bl : Nat) (order : ByteOrder)
    (h1 : data ≠ []) (h2 : 0 < bl) (h3 : bl ≤ 64) (h4 : s / 8 < data.length)
    (hv : value < 2 ^ bl) (hfit : flatStart order s + bl ≤ 8 * data.length) :
    extract_bits (insert_bits data value s bl order).2 s bl order = some value := by
  obtain ⟨-, hlen, hbit⟩ := insert_bits_spec data value s bl order h1 h2 h3 h4
  have hne : (insert_bits data value s bl order).2 ≠ [] := by
    intro hcon
    rw [hcon] at hlen
    simp at hlen
    exact h1 (List.length_eq_zero.mp hlen.symm)
  rw [extract_bits_some _ s bl order hne h2 h3 (by rw [hlen]; exact h4)]
  congr 1
  have hread : ∀ k, k < bl →
      bitAt (insert_bits data value s bl order).2 (flatStart order s + k) = value.testBit k := by
    intro k hk
    rw [hbit (flatStart order s + k)]
    rw [if_pos (by refine ⟨by omega, by omega, by omega⟩)]
    congr 1
    omega
  rw [readBits_of_testBit _ bl value (flatStart order s) hread]
  exact Nat.mod_eq_of_lt hv
/-- `Multiplexor` from `src/core/dbc.rs`. -/
inductive Multiplexor where
  | Signal
  | Value (v : Nat)
deriving DecidableEq, Repr

/-- `DbcSignal` from `src/core/dbc.rs`; `f64` fields are modelled as `Rat`. -/
structure DbcSignal where
  name : String
  start_bit : Nat
  bit_length : Nat
  byte_order : ByteOrder
  value_type : ValueType
  factor : Rat
  offset : Rat
  minimum : Option Rat
  maximum : Option Rat
  unit : Option String
  multiplexor : Option Multiplexor
deriving DecidableEq, Repr

/-- `DbcMessage` from `src/core/dbc.rs`. -/
structure DbcMessage where
  id : Nat
  name : String
  size : Nat
  signals : List DbcSignal
deriving DecidableEq, Repr

/-- `ValueDescription` from `src/core/dbc.rs` (`value` is an `i64`). -/
structure ValueDescription where
  value : Int
  description : String
deriving DecidableEq, Repr

/-- `DbcFile` from `src/core/dbc.rs`.  The id-keyed `HashMap` lookup is
modelled by its observable `get` view, a function `Nat → Option DbcMessage`
(only `insert` and `get` of this map are exercised by the core);
`value_tables` is kept as a list because serialization iterates it. -/
structure DbcFile where
  version : String
  messages : List DbcMessage
  message_lookup : Nat → Option DbcMessage
  value_tables : List (String × List ValueDescription)
  file_path : Option String

/-- `HashMap::insert` on the functional model of `message_lookup`. -/
def hmInsertMsg (m : Nat → Option DbcMessage) (k : Nat) (v : DbcMessage) :
    Nat → Option DbcMessage :=
  fun k' => if k' = k then some v else m k'

/-- `HashMap::get` on the functional model of `message_lookup`. -/
def hmGetMsg (m : Nat → Option DbcMessage) (k : Nat) : Option DbcMessage :=
  m k

/-- `HashMap::insert` on the association-list model of `value_tables`. -/
def vtInsert (m : List (String × List ValueDescription)) (k : String)
    (v : List ValueDescription) : List (String × List ValueDescription) :=
  if m.any (fun p => p.1 == k) then m.map (fun p => if p.1 == k then (k, v) else p)
  else m ++ [(k, v)]

/-- `DbcFile::new`. -/
def DbcFile.new : DbcFile :=
  { version := "", messages := [], message_lookup := fun _ => none,
    value_tables := [], file_path := none }

/-- `DbcFile::add_message`. -/
def DbcFile.add_message (dbc : DbcFile) (message : DbcMessage) : DbcFile :=
  { dbc with
    message_lookup := hmInsertMsg dbc.message_lookup message.id message,
    messages := dbc.messages ++ [message] }

/-- `DbcFile::get_message`. -/
def DbcFile.get_message (dbc : DbcFile) (id : Nat) : Option DbcMessage :=
  hmGetMsg dbc.message_lookup id

/-- `CanMessage` from `src/core/message.rs`; the `DateTime<Utc>` timestamp
is opaque to the decoder and modelled as a `Nat` tick. -/
structure CanMessage where
  timestamp : Nat
  bus : Nat
  id : Nat
  data : List Nat
deriving DecidableEq, Repr

/-- `DecodedSignal` from `src/decode/decoder.rs` (physical value over `Rat`). -/
structure DecodedSignal where
  name : String
  physical_value : Rat
  raw_value : Nat
  unit : Option String
  timestamp : Nat
  message_id : Nat
deriving DecidableEq, Repr

/-- `SignalDecoder::decode_signal`.  The decoder's `self` is not read by
this method, so it is a plain function here. -/
def decode_signal (msg : CanMessage) (signal : DbcSignal) : Option DecodedSignal :=
  match extract_bits msg.data signal.start_bit signal.bit_length signal.byte_order with
  | none => none
  | some rv =>
    let raw_value :=
      if signal.value_type = ValueType.Signed then sign_extend rv signal.bit_length
      else rv
    let physical_value : Rat := (raw_value : Rat) * signal.factor + signal.offset
    some { name := signal.name, physical_value := physical_value,
           raw_value := raw_value, unit := signal.unit,
           timestamp := msg.timestamp, message_id := msg.id }

/-- `SignalDecoder::decode_message`; `self.dbc` is the `Option DbcFile`. -/
def decode_message (dbc? : Option DbcFile) (msg : CanMessage) : List DecodedSignal :=
  match dbc? with
  | none => []
  | some dbc =>
    match dbc.get_message msg.id with
    | none => []
    | some dbc_msg => dbc_msg.signals.filterMap (fun signal => decode_signal msg signal)

/-- Truncation toward zero of a rational, as Rust's `f64 as i64` cast
rounds (before saturation). -/
def ratTrunc (q : Rat) : Int :=
  q.num.tdiv (q.den : Int)

/-- Saturation of Rust's `f64 as i64` cast. -/
def i64Sat (x : Int) : Int :=
  max (-(2 ^ 63)) (min x (2 ^ 63 - 1))

/-- `SignalDecoder::encode_signal`.  The model is checked at the one
unchecked machine operation of the source: `(1u64 << signal.bit_length)`
overflows the shift when `bit_length ≥ 64` (a panic in debug builds; in
release builds the masked shift makes the mask `0`), so the model returns
`none` exactly there, and `some` of the (success flag, buffer) pair of
`insert_bits` everywhere the source is panic-free. -/
def encode_signal (data : List Nat) (signal : DbcSignal) (physical_value : Rat) :
    Option (Bool × List Nat) :=
  let raw_value : Int := i64Sat (ratTrunc ((physical_value - signal.offset) / signal.factor))
  if raw_value < 0 then
    if signal.bit_length < 64 then
      let mask : Nat := ((1 : Nat) <<< signal.bit_length) - 1
      let raw_unsigned : Nat := (raw_value + 2 ^ 64).toNat &&& mask
      some (insert_bits data raw_unsigned signal.start_bit signal.bit_length signal.byte_order)
    else none
  else
    some (insert_bits data raw_value.toNat signal.start_bit signal.bit_length signal.byte_order)
/-- ASCII whitespace recognizer (the whitespace the DBC grammar uses). -/
def isWsChar (c : Char) : Bool :=
  c == ' ' || c == '\t' || c == '\n' || c == '\r'

/-- Rust `str::trim` on the character list of a line. -/
def trimChars (l : List Char) : List Char :=
  ((l.dropWhile isWsChar).reverse.dropWhile isWsChar).reverse

/-- Rust `str::trim_start`. -/
def trimStartChars (l : List Char) : List Char :=
  l.dropWhile isWsChar

/-- Rust `str::starts_with` on character lists (pattern first). -/
def charsStartWith : List Char → List Char → Bool
  | [], _ => true
  | _ :: _, [] => false
  | p :: ps, c :: cs => p == c && charsStartWith ps cs

/-- Rust `str::strip_prefix` on character lists. -/
def dropPat? (pat l : List Char) : Option (List Char) :=
  if charsStartWith pat l then some (l.drop pat.length) else none

/-- Splitting a character list on a separator character (as Rust
`str::split(sep)`): `n` separators produce `n + 1` segments. -/
def splitCharsOnAux (sep : Char) : List Char → List Char → List (List Char)
  | [], acc => [acc.reverse]
  | c :: rest, acc =>
    if c == sep then acc.reverse :: splitCharsOnAux sep rest []
    else splitCharsOnAux sep rest (c :: acc)

/-- See `splitCharsOnAux`. -/
def splitCharsOn (sep : Char) (l : List Char) : List (List Char) :=
  splitCharsOnAux sep l []

/-- Rust `str::split_whitespace`: maximal non-whitespace runs, empties
dropped. -/
def splitWsAux : List Char → List Char → List (List Char)
  | [], acc => if acc.isEmpty then [] else [acc.reverse]
  | c :: rest, acc =>
    if isWsChar c then
      if acc.isEmpty then splitWsAux rest [] else acc.reverse :: splitWsAux rest []
    else splitWsAux rest (c :: acc)

/-- See `splitWsAux`. -/
def splitWs (l : List Char) : List (List Char) :=
  splitWsAux l []

/-- Rust `str::lines`: split on `'\n'`, drop one trailing empty segment,
strip a trailing `'\r'` from each line. -/
def rustLines (s : String) : List (List Char) :=
  let parts := splitCharsOn '\n' s.data
  let parts :=
    match parts.getLast? with
    | some [] => parts.dropLast
    | _ => parts
  parts.map (fun l =>
    match l.getLast? with
    | some c => if c == '\r' then l.dropLast else l
    | none => l)

/-- Decimal digit accumulation for Rust's integer `parse`. -/
def charsToNatAux : List Char → Nat → Option Nat
  | [], acc => some acc
  | c :: rest, acc =>
    if c.isDigit then charsToNatAux rest (acc * 10 + (c.toNat - 48)) else none

/-- Rust `str::parse::<uN>` digits (empty and non-digit inputs fail). -/
def charsToNat? (l : List Char) : Option Nat :=
  if l.isEmpty then none else charsToNatAux l 0

/-- Rust `str::parse::<u32>` (with its range check). -/
def parseU32 (l : List Char) : Option Nat :=
  match charsToNat? l with
  | some n => if n < 2 ^ 32 then some n else none
  | none => none

/-- Rust `str::parse::<u8>` (with its range check). -/
def parseU8 (l : List Char) : Option Nat :=
  match charsToNat? l with
  | some n => if n < 2 ^ 8 then some n else none
  | none => none

/-- Rust `str::parse::<i64>` (sign, digits, range check). -/
def parseI64 (l : List Char) : Option Int :=
  match l with
  | '-' :: rest =>
    match charsToNat? rest with
    | some n => if n ≤ 2 ^ 63 then some (-(n : Int)) else none
    | none => none
  | _ =>
    match charsToNat? l with
    | some n => if n < 2 ^ 63 then some (n : Int) else none
    | none => none

/-- Rust `str::parse::<f64>`, modelled for the plain decimal literals
(`[-+]?digits[.digits]`) that the DBC grammar of this repository emits and
consumes; such literals are exact decimal rationals. -/
def parseRatChars (l : List Char) : Option Rat :=
  let signAndRest : Bool × List Char :=
    match l with
    | '-' :: rest => (true, rest)
    | '+' :: rest => (false, rest)
    | _ => (false, l)
  let body := signAndRest.2
  let q? : Option Rat :=
    match splitCharsOn '.' body with
    | [ip] => (charsToNat? ip).map (fun n => (n : Rat))
    | [ip, fp] =>
      match charsToNat? ip, charsToNat? fp with
      | some n, some f => some ((n : Rat) + (f : Rat) / ((10 : Rat) ^ fp.length))
      | _, _ => none
    | _ => none
  q?.map (fun q => if signAndRest.1 then -q else q)

/-- Index of the first occurrence of a character (Rust `str::find(char)`). -/
def charsFindIdx : List Char → Char → Option Nat
  | [], _ => none
  | c :: rest, t =>
    if c == t then some 0 else (charsFindIdx rest t).map (fun n => n + 1)

/-- Decimal digits of a `Nat` (Rust `{}` formatting of unsigned integers);
the fuel is the number itself, ample since the value shrinks 10-fold per
digit. -/
def natToCharsAux : Nat → Nat → List Char → List Char
  | 0, _, acc => acc
  | fuel + 1, n, acc =>
    let d := Char.ofNat (48 + n % 10)
    if n < 10 then d :: acc else natToCharsAux fuel (n / 10) (d :: acc)

/-- See `natToCharsAux`. -/
def natToChars (n : Nat) : List Char :=
  natToCharsAux (n + 1) n []

/-- Rust `{}` formatting of a `Nat` as a `String`. -/
def natStr (n : Nat) : String :=
  String.mk (natToChars n)

/-- Rust `{}` formatting of an `i64`. -/
def intStr (i : Int) : String :=
  if i < 0 then String.mk ('-' :: natToChars i.natAbs) else natStr i.natAbs
/-- `parse_message_line` from `src/core/dbc.rs`:
`BO_ <id> <name>: <dlc> <transmitter>`. -/
def parse_message_line (line : List Char) : Option DbcMessage :=
  let parts := splitWs line
  if parts.length < 4 ∨ parts.getD 0 [] ≠ ("BO_".data) then none
  else
    match parseU32 (parts.getD 1 []) with
    | none => none
    | some id =>
      match parseU8 (parts.getD 3 []) with
      | none => none
      | some size =>
        let name := String.mk (((parts.getD 2 []).reverse.dropWhile (fun c => c == ':')).reverse)
        some { id := id, name := name, size := size, signals := [] }

/-- `parse_order_and_type` from `src/core/dbc.rs`: a suffix like `"@1+"`. -/
def parse_order_and_type (s : List Char) : Option (ByteOrder × ValueType) :=
  if ¬ charsStartWith ("@".data) s ∨ s.length < 3 then none
  else
    match s.getD 1 ' ' with
    | '0' =>
      match s.getD 2 ' ' with
      | '+' => some (ByteOrder.Motorola, ValueType.Unsigned)
      | '-' => some (ByteOrder.Motorola, ValueType.Signed)
      | _ => none
    | '1' =>
      match s.getD 2 ' ' with
      | '+' => some (ByteOrder.Intel, ValueType.Unsigned)
      | '-' => some (ByteOrder.Intel, ValueType.Signed)
      | _ => none
    | _ => none

/-- `parse_min_max` from `src/core/dbc.rs`: `"[<min>|<max>]"`. -/
def parse_min_max (s : List Char) : Option Rat × Option Rat :=
  let isBr : Char → Bool := fun c => c == '[' || c == ']'
  let s := ((s.dropWhile isBr).reverse.dropWhile isBr).reverse
  let parts := splitCharsOn '|' s
  if parts.length ≠ 2 then (none, none)
  else (parseRatChars (parts.getD 0 []), parseRatChars (parts.getD 1 []))

/-- `parse_signal_line` from `src/core/dbc.rs`:
`SG_ <name> [M|m<n>] : <start>|<len>@<order><sign> (<factor>,<offset>)
[<min>|<max>] "<unit>" <receiver>`. -/
def parse_signal_line (line : List Char) : Option DbcSignal :=
  match dropPat? ("SG_ ".data) line with
  | none => none
  | some l =>
    match charsFindIdx l ':' with
    | none => none
    | some colon_pos =>
      let name_part := l.take colon_pos
      let rest := l.drop (colon_pos + 1)
      match (splitWs name_part).head? with
      | none => none
      | some nameTok =>
        let parts := splitWs (trimStartChars rest)
        if parts.isEmpty then none
        else
          let bit_info := parts.getD 0 []
          match charsFindIdx bit_info '@' with
          | none => none
          | some at_pos =>
            let bit_part := bit_info.take at_pos
            let order_type := bit_info.drop at_pos
            let bit_parts := splitCharsOn '|' bit_part
            if bit_parts.length ≠ 2 then none
            else
              match parseU8 (bit_parts.getD 0 []), parseU8 (bit_parts.getD 1 []) with
              | some start_bit, some bit_length =>
                match parse_order_and_type order_type with
                | none => none
                | some (byte_order, value_type) =>
                  let isPar : Char → Bool := fun c => c == '(' || c == ')'
                  let foRes : Option (Rat × Rat) :=
                    match parts.find? (fun p => charsStartWith ("(".data) p) with
                    | none => some (1, 0)
                    | some p =>
                      let fo := ((p.dropWhile isPar).reverse.dropWhile isPar).reverse
                      let fo_parts := splitCharsOn ',' fo
                      if fo_parts.length = 2 then
                        match parseRatChars (fo_parts.getD 0 []),
                            parseRatChars (fo_parts.getD 1 []) with
                        | some f, some o => some (f, o)
                        | _, _ => none
                      else some (1, 0)
                  match foRes with
                  | none => none
                  | some (factor, offset) =>
                    let minMax :=
                      match parts.find? (fun p => charsStartWith ("[".data) p) with
                      | none => (none, none)
                      | some p => parse_min_max p
                    let unit :=
                      (parts.find? (fun p => charsStartWith ("\"".data) p)).map
                        (fun p => String.mk
                          (((p.dropWhile (fun c => c == '"')).reverse.dropWhile
                              (fun c => c == '"')).reverse))
                    some { name := String.mk nameTok, start_bit := start_bit,
                           bit_length := bit_length, byte_order := byte_order,
                           value_type := value_type, factor := factor,
                           offset := offset, minimum := minMax.1,
                           maximum := minMax.2, unit := unit, multiplexor := none }
              | _, _ => none

/-- The value/description pair walk of `parse_val_line` (`i` stepping by 2
over the `split('"')` segments while `i + 1` is in range). -/
def valPairs : List (List Char) → List ValueDescription
  | a :: b :: rest =>
    (match (splitWs (trimChars a)).getLast? with
     | some tok =>
       match parseI64 tok with
       | some v => [{ value := v, description := String.mk b }]
       | none => []
     | none => []) ++ valPairs rest
  | _ => []

/-- `parse_val_line` from `src/core/dbc.rs`:
`VAL_ <id> <signal_name> <v1> "<d1>" ... ;`. -/
def parse_val_line (line : List Char) : Option (String × List ValueDescription) :=
  match dropPat? ("VAL_ ".data) line with
  | none => none
  | some l =>
    let parts := splitCharsOn '"' l
    if parts.length < 3 then none
    else
      let first_parts := splitWs (parts.getD 0 [])
      if first_parts.length < 3 then none
      else
        let signal_name := String.mk (first_parts.getD 1 [])
        let values := valPairs parts
        if values.isEmpty then none else some (signal_name, values)

/-- One iteration of the line loop of `DbcFile::parse`. -/
def parseLine (dbc : DbcFile) (rawLine : List Char) : DbcFile :=
  let line := trimChars rawLine
  if charsStartWith ("VERSION".data) line then
    let v := (dropPat? ("VERSION ".data) line).getD []
    let v := ((v.dropWhile (fun c => c == '"')).reverse.dropWhile (fun c => c == '"')).reverse
    { dbc with version := String.mk v }
  else if charsStartWith ("BO_ ".data) line then
    match parse_message_line line with
    | some msg =>
      { dbc with
        message_lookup := hmInsertMsg dbc.message_lookup msg.id msg,
        messages := dbc.messages ++ [msg] }
    | none => dbc
  else if charsStartWith ("SG_ ".data) line then
    match dbc.messages.getLast? with
    | some lastMsg =>
      match parse_signal_line line with
      | some signal =>
        { dbc with
          messages := dbc.messages.dropLast ++
            [{ lastMsg with signals := lastMsg.signals ++ [signal] }] }
      | none => dbc
    | none => dbc
  else if charsStartWith ("VAL_ ".data) line then
    match parse_val_line line with
    | some nv => { dbc with value_tables := vtInsert dbc.value_tables nv.1 nv.2 }
    | none => dbc
  else dbc

/-- `DbcFile::parse`.  The Rust function returns `Result` but never an
`Err`; the model returns the document directly.  After the line loop the
lookup index is rebuilt from the ordered message list exactly as
`dbc.messages.iter().map(..).collect::<HashMap<_,_>>()` does: sequential
inserts, later entries replacing earlier ones. -/
def DbcFile.parse (content : String) : DbcFile :=
  let dbc := (rustLines content).foldl parseLine DbcFile.new
  { dbc with
    message_lookup :=
      dbc.messages.foldl (fun acc m => hmInsertMsg acc m.id m) (fun _ => none) }
/-- Rust `{}` formatting of an `f64`, modelled for the finite decimal
rationals the DBC grammar produces (integer part, then a terminating
decimal fraction); matches `format!` output for values such as `1`, `0`,
`0.5`, `-40`. -/
def fmtFracDigits : Nat → Nat → Nat → List Char
  | 0, _, _ => []
  | _, 0, _ => []
  | fuel + 1, r, den =>
    Char.ofNat (48 + r * 10 / den) :: fmtFracDigits fuel (r * 10 % den) den

/-- See `fmtFracDigits`. -/
def fmtRat (q : Rat) : String :=
  let sgn : List Char := if q.num < 0 then ['-'] else []
  let n := q.num.natAbs
  let ip := n / q.den
  let fr := n % q.den
  if fr = 0 then String.mk (sgn ++ natToChars ip)
  else String.mk (sgn ++ natToChars ip ++ '.' :: fmtFracDigits 64 fr q.den)

/-- The fixed `NS_` boilerplate block `DbcFile::to_dbc_string` emits. -/
def nsBlock : String :=
  "NS_ :\n\tNS_DESC_\n\tCM_\n\tBA_DEF_\n\tBA_\n\tVAL_\n\tCAT_DEF_\n\tCAT_\n\tFILTER\n\tBA_DEF_DEF_\n\tEV_DATA_\n\tENVVAR_DATA_\n\tSGTYPE_\n\tSGTYPE_VAL_\n\tBA_DEF_SGTYPE_\n\tBA_SGTYPE_\n\tSIG_TYPE_REF_\n\tVAL_TABLE_\n\tSIG_GROUP_\n\tSIG_VALTYPE_\n\tSIGTYPE_VALTYPE_\n\tBO_TX_BU_\n\tBA_DEF_REL_\n\tBA_REL_\n\tBA_DEF_DEF_REL_\n\tBU_SG_REL_\n\tBU_EV_REL_\n\tBU_BO_REL_\n\tSG_MUL_VAL_\n\n"

/-- The ` SG_ ...` line `DbcFile::to_dbc_string` emits for one signal. -/
def signalLineStr (signal : DbcSignal) : String :=
  let byte_order : String :=
    match signal.byte_order with
    | ByteOrder.Motorola => "0"
    | ByteOrder.Intel => "1"
  let value_type : String :=
    match signal.value_type with
    | ValueType.Signed => "-"
    | ValueType.Unsigned => "+"
  " SG_ " ++ signal.name ++ " : " ++ natStr signal.start_bit ++ "|" ++
    natStr signal.bit_length ++ "@" ++ byte_order ++ value_type ++ " (" ++
    fmtRat signal.factor ++ "," ++ fmtRat signal.offset ++ ") [" ++
    fmtRat (signal.minimum.getD 0) ++ "|" ++ fmtRat (signal.maximum.getD 0) ++
    "] \"" ++ (signal.unit.getD "") ++ "\" Vector__XXX\n"

/-- `DbcFile::to_dbc_string`. -/
def DbcFile.to_dbc_string (dbc : DbcFile) : String :=
  let header :=
    "VERSION \"" ++ dbc.version ++ "\"\n\n" ++ nsBlock ++ "BS_:\n\n" ++
      "BU_: Vector__XXX\n\n"
  let withMsgs :=
    dbc.messages.foldl (fun acc msg =>
      acc ++ "BO_ " ++ natStr msg.id ++ " " ++ msg.name ++ ": " ++
        natStr msg.size ++ " Vector__XXX\n" ++
        (msg.signals.foldl (fun a s => a ++ signalLineStr s) "") ++ "\n") header
  dbc.value_tables.foldl (fun acc nv =>
    acc ++ "VAL_ " ++ nv.1 ++ " " ++
      (nv.2.foldl (fun a v => a ++ intStr v.value ++ " \"" ++ v.description ++ "\" ") "") ++
      ";\n") withMsgs

/-- Occurrences of a pattern in a character list (used to check what the
serializer emits). -/
def countOccs (pat : List Char) : List Char → Nat
  | [] => 0
  | c :: rest =>
    (if charsStartWith pat (c :: rest) then 1 else 0) + countOccs pat rest

/-- `HashMap::insert` then `get`: the inserted key reads back the new
value, every other key is unaffected. -/
theorem hmGetMsg_hmInsertMsg (m : Nat → Option DbcMessage) (k k' : Nat) (v : DbcMessage) :
    hmGetMsg (hmInsertMsg m k v) k' = if k' = k then some v else hmGetMsg m k' := rfl

/-- Rebuilding the lookup by left-folding `insert` over the message list:
the last message with a given id wins; ids absent from the list fall back
to the accumulator. -/
theorem hmGetMsg_foldl (msgs : List DbcMessage) :
    ∀ (acc : Nat → Option DbcMessage) (k : Nat),
      hmGetMsg (msgs.foldl (fun a m => hmInsertMsg a m.id m) acc) k =
        match msgs.reverse.find? (fun m => m.id == k) with
        | some m => some m
        | none => hmGetMsg acc k := by
  induction msgs with
  | nil => intro acc k; rfl
  | cons m ms ih =>
    intro acc k
    show hmGetMsg (ms.foldl (fun a m => hmInsertMsg a m.id m) (hmInsertMsg acc m.id m)) k = _
    rw [ih (hmInsertMsg acc m.id m) k]
    have hrev : (m :: ms).reverse = ms.reverse ++ [m] := by simp
    rw [hrev, List.find?_append]
    cases hms : ms.reverse.find? (fun x => x.id == k) with
    | some x => rfl
    | none =>
      rw [hmGetMsg_hmInsertMsg]
      by_cases hk : m.id = k
      · rw [if_pos hk.symm]
        rw [show ([m].find? (fun x => x.id == k)) = some m from by simp [hk]]
        simp
      · rw [if_neg (fun h => hk h.symm)]
        rw [show ([m].find? (fun x => x.id == k)) = none from by simp [hk]]
        simp

/-- After `DbcFile::parse`, the id-keyed lookup (as read by `get_message`)
returns the message of the last `BO_` record with that id in the ordered
message list, because the lookup is rebuilt from the ordered list after
all lines are processed. -/
theorem parse_get_message_eq_last (content : String) (id : Nat) :
    (DbcFile.parse content).get_message id =
      (DbcFile.parse content).messages.reverse.find? (fun m => m.id == id) := by
  show hmGetMsg (((rustLines content).foldl parseLine DbcFile.new).messages.foldl
      (fun acc m => hmInsertMsg acc m.id m) (fun _ => none)) id = _
  rw [hmGetMsg_foldl]
  cases hfind : ((rustLines content).foldl parseLine DbcFile.new).messages.reverse.find?
      (fun m => m.id == id) with
  | some m => exact hfind.symm
  | none => exact hfind.symm
/-- C2: for every payload, start bit and bit length, Motorola extraction
starts at byte `start_bit / 8`, bit-in-byte `7 - start_bit % 8`, and from
that transformed position proceeds exactly as the little-endian case: its
result equals the little-endian (Intel) extraction applied at the flat
index `8 * (start_bit / 8) + (7 - start_bit % 8)` of the transformed
`(byte_idx, bit_idx)`. -/
theorem c2_motorola_transform (data : List Nat) (s bl : Nat) :
    extract_bits data s bl ByteOrder.Motorola =
      extract_bits data (8 * (s / 8) + (7 - s % 8)) bl ByteOrder.Intel := by
  by_cases hg : data = [] ∨ bl = 0 ∨ 64 < bl
  · unfold extract_bits
    rw [if_pos hg, if_pos hg]
  · have hdiv : (8 * (s / 8) + (7 - s % 8)) / 8 = s / 8 := by omega
    have hmod : (8 * (s / 8) + (7 - s % 8)) % 8 = 7 - s % 8 := by omega
    show (if data = [] ∨ bl = 0 ∨ 64 < bl then none
      else if data.length ≤ s / 8 then none
      else some (extractLoop data bl bl bl (s / 8) (7 - s % 8) 0)) =
      (if data = [] ∨ bl = 0 ∨ 64 < bl then none
      else if data.length ≤ (8 * (s / 8) + (7 - s % 8)) / 8 then none
      else some (extractLoop data bl bl bl ((8 * (s / 8) + (7 - s % 8)) / 8)
        ((8 * (s / 8) + (7 - s % 8)) % 8) 0))
    rw [hdiv, hmod]

/-- C3: `extract_bits` returns `none` exactly when the payload is empty,
`bit_length` is zero or exceeds 64, or the computed starting byte index
`start_bit / 8` is out of bounds; otherwise it returns `some` of the
unsigned integer formed by concatenating `bit_length` bits from the flat
position implied by `start_bit` and the byte order, least-significant
extracted bit at result bit 0 (`readBits`). -/
theorem c3_extract_contract :
    (∀ (data : List Nat) (s bl : Nat) (order : ByteOrder),
      extract_bits data s bl order = none ↔
        (data = [] ∨ bl = 0 ∨ 64 < bl ∨ data.length ≤ s / 8)) ∧
    (∀ (data : List Nat) (s bl : Nat) (order : ByteOrder),
      data ≠ [] → 0 < bl → bl ≤ 64 → s / 8 < data.length →
      extract_bits data s bl order = some (readBits data (flatStart order s) bl)) :=
  ⟨extract_bits_none_iff, fun data s bl order h1 h2 h3 h4 =>
    extract_bits_some data s bl order h1 h2 h3 h4⟩

/-- Witness for C3 at the payload `[0xCD, 0xAB]` of the spec's test vector. -/
theorem c3_witness : extract_bits [205, 171] 0 16 ByteOrder.Intel = some 43981 := by
  have h := c3_extract_contract.2 [205, 171] 0 16 ByteOrder.Intel
    (by decide) (by decide) (by decide) (by decide)
  rw [h]
  decide

/-- C7: `insert_bits` returns `false` exactly when `extract_bits` returns
`none`; a `false` return leaves the payload unchanged; a `true` return
keeps the length and modifies only the flat bits of the targeted range —
every other bit of every byte keeps its prior value. -/
theorem c7_insert_contract :
    ∀ (data : List Nat) (value s bl : Nat) (order : ByteOrder),
      ((insert_bits data value s bl order).1 = false ↔
        extract_bits data s bl order = none) ∧
      ((insert_bits data value s bl order).1 = false →
        (insert_bits data value s bl order).2 = data) ∧
      ((insert_bits data value s bl order).1 = true →
        (insert_bits data value s bl order).2.length = data.length ∧
        ∀ i, i < flatStart order s ∨ flatStart order s + bl ≤ i →
          bitAt (insert_bits data value s bl order).2 i = bitAt data i) := by
  intro data value s bl order
  obtain ⟨hiff, hunch⟩ := insert_bits_false_iff data value s bl order
  refine ⟨by rw [hiff, extract_bits_none_iff], hunch, ?_⟩
  intro htrue
  by_cases hg : data = [] ∨ bl = 0 ∨ 64 < bl ∨ data.length ≤ s / 8
  · exfalso
    have := hiff.2 hg
    rw [htrue] at this
    cases this
  · push_neg at hg
    obtain ⟨-, hlen, hbit⟩ := insert_bits_spec data value s bl order hg.1
      (by omega) (by omega) (by omega)
    exact ⟨hlen, fun i hi => by rw [hbit i, if_neg (by omega)]⟩

/-- Witness for C7: writing a 4-bit field at bits 0–3 of `[0xFF]` keeps
bit 5 of the byte intact. -/
theorem c7_witness : bitAt (insert_bits [255] 0 0 4 ByteOrder.Intel).2 5 = bitAt [255] 5 :=
  ((c7_insert_contract [255] 0 0 4 ByteOrder.Intel).2.2 (by decide)).2 5 (Or.inr (by decide))

/-- C1 counterexample: inside the claimed ranges (`start_bit = 56 ≤ 56`,
`bit_length = 8 ≤ 32`, `start_bit + bit_length = 64 ≤ 64`, `value = 2 <
2^8`), the Motorola round trip on a zeroed 8-byte buffer yields
`some 0 ≠ some 2`: the transformed start position `8*(56/8) + 7 - 56%8 =
63` leaves room for only one bit before the end of the buffer, so the
write and the read both silently truncate. -/
theorem c1_counterexample :
    extract_bits (insert_bits (List.replicate 8 0) 2 56 8 ByteOrder.Motorola).2
        56 8 ByteOrder.Motorola = some 0 ∧
    extract_bits (insert_bits (List.replicate 8 0) 2 56 8 ByteOrder.Motorola).2
        56 8 ByteOrder.Motorola ≠ some 2 ∧
    56 + 8 ≤ 64 ∧ 2 < 2 ^ 8 := by
  decide

/-- C1 (amended): the round trip through a zeroed 8-byte buffer recovers
`value` for every `start_bit ≤ 56`, `bit_length` 1–32 with `start_bit +
bit_length ≤ 64` and `value < 2^bit_length`, provided the transformed flat
start position plus `bit_length` also fits in the 64-bit buffer
(`flatStart order start_bit + bit_length ≤ 64` — automatic for Intel,
where `flatStart` is `start_bit` itself; for Motorola it excludes exactly
the truncating windows of the counterexample). -/
theorem c1_roundtrip (s bl value : Nat) (order : ByteOrder)
    (hs : s ≤ 56) (hbl1 : 1 ≤ bl) (hbl2 : bl ≤ 32) (hsum : s + bl ≤ 64)
    (hv : value < 2 ^ bl) (hfit : flatStart order s + bl ≤ 64) :
    extract_bits (insert_bits (List.replicate 8 0) value s bl order).2 s bl order
      = some value := by
  have hlen : (List.replicate 8 (0 : Nat)).length = 8 := by simp
  exact roundtrip_flat (List.replicate 8 0) value s bl order (by simp)
    (by omega) (by omega) (by rw [hlen]; omega) hv (by rw [hlen]; omega)

/-- Witness for C1 (amended): a full 32-bit Motorola round trip at
`start_bit = 0` (transformed flat start 7, `7 + 32 ≤ 64`). -/
theorem c1_witness :
    extract_bits (insert_bits (List.replicate 8 0) 4294967295 0 32 ByteOrder.Motorola).2
        0 32 ByteOrder.Motorola = some 4294967295 :=
  c1_roundtrip 0 32 4294967295 ByteOrder.Motorola (by decide) (by decide) (by decide)
    (by decide) (by decide) (by decide)
/-- `decode_signal` as an `Option.map` over the raw extraction. -/
theorem decode_signal_eq_map (msg : CanMessage) (signal : DbcSignal) :
    decode_signal msg signal =
      (extract_bits msg.data signal.start_bit signal.bit_length signal.byte_order).map
        (fun rv =>
          let raw := if signal.value_type = ValueType.Signed
            then sign_extend rv signal.bit_length else rv
          { name := signal.name,
            physical_value := (raw : Rat) * signal.factor + signal.offset,
            raw_value := raw, unit := signal.unit,
            timestamp := msg.timestamp, message_id := msg.id }) := by
  unfold decode_signal
  cases extract_bits msg.data signal.start_bit signal.bit_length signal.byte_order <;> rfl

/-- `decode_signal` fails exactly when the raw bit extraction fails. -/
theorem decode_signal_none_iff (msg : CanMessage) (signal : DbcSignal) :
    decode_signal msg signal = none ↔
      extract_bits msg.data signal.start_bit signal.bit_length signal.byte_order = none := by
  rw [decode_signal_eq_map]
  cases extract_bits msg.data signal.start_bit signal.bit_length signal.byte_order <;> simp

/-- The decode-scaling test signal of the spec (`factor 0.5`, `offset
-40`). -/
def scalingSignal : DbcSignal :=
  { name := "TestSignal", start_bit := 0, bit_length := 8,
    byte_order := ByteOrder.Intel, value_type := ValueType.Unsigned,
    factor := 1 / 2, offset := -40, minimum := none, maximum := none,
    unit := some "degC", multiplexor := none }

/-- C4: `decode_signal` returns `none` exactly when `extract_bits` does;
otherwise it returns the decoded record with the (sign-extended when
signed) raw value, `physical = raw * factor + offset`, and the signal's
name/unit and the frame's timestamp/id; in particular the spec's scaling
vector: byte 100, factor 0.5, offset −40 decodes to physical 10. -/
theorem c4_decode_signal :
    (∀ (msg : CanMessage) (signal : DbcSignal),
      (decode_signal msg signal = none ↔
        extract_bits msg.data signal.start_bit signal.bit_length signal.byte_order = none) ∧
      decode_signal msg signal =
        (extract_bits msg.data signal.start_bit signal.bit_length signal.byte_order).map
          (fun rv =>
            let raw := if signal.value_type = ValueType.Signed
              then sign_extend rv signal.bit_length else rv
            { name := signal.name,
              physical_value := (raw : Rat) * signal.factor + signal.offset,
              raw_value := raw, unit := signal.unit,
              timestamp := msg.timestamp, message_id := msg.id })) ∧
    (decode_signal { timestamp := 77, bus := 0, id := 0x123, data := [100] }
        scalingSignal).map
      (fun d => (d.name, d.raw_value, d.physical_value, d.unit, d.timestamp, d.message_id)) =
      some ("TestSignal", 100, 10, some "degC", 77, 0x123) := by
  refine ⟨fun msg signal => ⟨decode_signal_none_iff msg signal, decode_signal_eq_map msg signal⟩, ?_⟩
  have hx : extract_bits [100] 0 8 ByteOrder.Intel = some 100 := by decide
  rw [decode_signal_eq_map]
  show (Option.map _ (extract_bits [100] 0 8 ByteOrder.Intel)).map _ = _
  rw [hx]
  simp only [Option.map_some]
  simp only [scalingSignal]
  norm_num
  refine ⟨fun h => absurd h (by decide), ?_⟩
  rw [if_neg (show ¬ (ValueType.Unsigned = ValueType.Signed) by decide)]
  norm_num
/-- The u64 complement mask of `sign_extend` is the block of ones from bit
`bl` up to bit 63. -/
theorem sign_extend_mask (bl : Nat) (hbl : bl ≤ 64) :
    ((2 ^ 64 - 1) : Nat) ^^^ (((1 : Nat) <<< bl) - 1) = (2 ^ (64 - bl) - 1) <<< bl := by
  rw [Nat.one_shiftLeft]
  apply Nat.eq_of_testBit_eq
  intro i
  simp only [Nat.testBit_xor, Nat.testBit_two_pow_sub_one, Nat.testBit_shiftLeft,
    Nat.testBit_two_pow_sub_one]
  rcases Nat.lt_or_ge i bl with h1 | h1
  · simp [h1, (by omega : i < 64), (by omega : ¬ bl ≤ i)]
  · rcases Nat.lt_or_ge i 64 with h2 | h2
    · simp [h2, (by omega : ¬ i < bl), h1, (by omega : i - bl < 64 - bl)]
    · have d1 : decide (i < 64) = false := decide_eq_false (by omega)
      have d2 : decide (i < bl) = false := decide_eq_false (by omega)
      have d3 : decide (i - bl < 64 - bl) = false := decide_eq_false (by omega)
      simp [d1, d2, d3]

/-- On a field value with its sign bit set, `sign_extend` adds the block of
high ones: the result is `value + (2^64 - 2^bit_length)` (the two's-
complement bit pattern read as an unsigned 64-bit integer). -/
theorem sign_extend_neg (rv bl : Nat) (hbl : 0 < bl) (hbl64 : bl < 64)
    (hv : rv < 2 ^ bl) (hsign : rv.testBit (bl - 1) = true) :
    sign_extend rv bl = rv + (2 ^ 64 - 2 ^ bl) := by
  unfold sign_extend
  rw [if_neg (by omega)]
  have hsb : rv &&& ((1 : Nat) <<< (bl - 1)) ≠ 0 := by
    intro h0
    have := congrArg (fun x => Nat.testBit x (bl - 1)) h0
    simp only [Nat.one_shiftLeft, Nat.testBit_land, hsign, Nat.testBit_two_pow_self,
      Nat.zero_testBit, Bool.and_true] at this
    cases this
  rw [if_pos hsb]
  rw [sign_extend_mask bl (by omega)]
  rw [lor_shiftLeft_add rv (2 ^ (64 - bl) - 1) bl hv]
  have h1 : (2 ^ (64 - bl) - 1) * 2 ^ bl = 2 ^ 64 - 2 ^ bl := by
    rw [Nat.sub_mul, one_mul, ← Nat.pow_add]
    congr 2
    omega
  rw [h1]

/-- The frame of C5's concrete example: one byte `0x0F`. -/
def msg15 : CanMessage :=
  { timestamp := 0, bus := 0, id := 1, data := [15] }

/-- The all-ones 4-bit signed example signal of C5 (factor 1, offset 0). -/
def signedSignal4 : DbcSignal :=
  { name := "S4", start_bit := 0, bit_length := 4,
    byte_order := ByteOrder.Intel, value_type := ValueType.Signed,
    factor := 1, offset := 0, minimum := none, maximum := none,
    unit := none, multiplexor := none }

/-- C5: for a signed signal of width < 64 whose extracted field has its
sign bit set, `decode_signal` stores the sign-extended bit pattern in
`raw_value` as the unsigned 64-bit integer `rv + (2^64 - 2^bit_length)`
(at least `2^63`), and computes `physical_value` from that unsigned value
— so the physical value is huge and positive whenever `factor ≥ 1` and
`offset ≥ 0`; e.g. a 4-bit all-ones field gives `raw_value =
0xFFFFFFFFFFFFFFFF` and, with factor 1 and offset 0, `physical_value =
18446744073709551615`. -/
theorem c5_signed_decode :
    (∀ (msg : CanMessage) (signal : DbcSignal) (rv : Nat),
      signal.value_type = ValueType.Signed →
      0 < signal.bit_length → signal.bit_length < 64 →
      extract_bits msg.data signal.start_bit signal.bit_length signal.byte_order = some rv →
      rv.testBit (signal.bit_length - 1) = true →
      ∃ d, decode_signal msg signal = some d ∧
        d.raw_value = rv + (2 ^ 64 - 2 ^ signal.bit_length) ∧
        2 ^ 63 ≤ d.raw_value ∧
        d.physical_value = (d.raw_value : Rat) * signal.factor + signal.offset ∧
        (1 ≤ signal.factor → 0 ≤ signal.offset →
          ((2 : Rat) ^ 63 ≤ d.physical_value))) ∧
    (∃ d, decode_signal msg15 signedSignal4
        = some d ∧
      d.raw_value = 18446744073709551615 ∧
      d.physical_value = (18446744073709551615 : Rat)) := by
  constructor
  · intro msg signal rv hsig hbl hbl64 hx hsign
    have hvlt : rv < 2 ^ signal.bit_length :=
      extract_bits_lt msg.data signal.start_bit signal.bit_length signal.byte_order rv hx
    have hse := sign_extend_neg rv signal.bit_length hbl hbl64 hvlt hsign
    rw [decode_signal_eq_map, hx]
    refine ⟨_, rfl, ?_, ?_, ?_, ?_⟩
    · simp only [Option.map_some]
      rw [if_pos hsig, hse]
    · simp only [Option.map_some]
      rw [if_pos hsig, hse]
      have hpow : 2 ^ signal.bit_length ≤ 2 ^ 63 :=
        Nat.pow_le_pow_right (by omega) (by omega)
      have h64 : (2 : Nat) ^ 64 = 2 ^ 63 + 2 ^ 63 := by norm_num
      omega
    · rfl
    · intro hfac hoff
      simp only [Option.map_some]
      rw [if_pos hsig, hse]
      have hraw : ((2 : Rat) ^ 63) ≤ ((rv + (2 ^ 64 - 2 ^ signal.bit_length) : Nat) : Rat) := by
        have hpow : 2 ^ signal.bit_length ≤ 2 ^ 63 :=
          Nat.pow_le_pow_right (by omega) (by omega)
        have h64 : (2 : Nat) ^ 64 = 2 ^ 63 + 2 ^ 63 := by norm_num
        have hnat : (2 : Nat) ^ 63 ≤ rv + (2 ^ 64 - 2 ^ signal.bit_length) := by omega
        calc ((2 : Rat) ^ 63) = (((2 : Nat) ^ 63 : Nat) : Rat) := by norm_num
          _ ≤ _ := by exact_mod_cast hnat
      calc ((2 : Rat) ^ 63) ≤ ((rv + (2 ^ 64 - 2 ^ signal.bit_length) : Nat) : Rat) := hraw
        _ = ((rv + (2 ^ 64 - 2 ^ signal.bit_length) : Nat) : Rat) * 1 + 0 := by ring
        _ ≤ ((rv + (2 ^ 64 - 2 ^ signal.bit_length) : Nat) : Rat) * signal.factor +
              signal.offset := by
            have h0 : (0 : Rat) ≤ ((rv + (2 ^ 64 - 2 ^ signal.bit_length) : Nat) : Rat) := by
              positivity
            gcongr
  · have hx : extract_bits msg15.data signedSignal4.start_bit
        signedSignal4.bit_length signedSignal4.byte_order = some 15 := by decide
    rw [decode_signal_eq_map, hx]
    simp only [Option.map_some]
    refine ⟨_, rfl, ?_, ?_⟩
    · decide
    · show ((if signedSignal4.value_type = ValueType.Signed
          then sign_extend 15 signedSignal4.bit_length else 15 : Nat) : Rat) *
          signedSignal4.factor + signedSignal4.offset = (18446744073709551615 : Rat)
      rw [show (if signedSignal4.value_type = ValueType.Signed
          then sign_extend 15 signedSignal4.bit_length else 15) = 18446744073709551615
          from by decide]
      norm_num [signedSignal4]

/-- Witness for C5 at the 4-bit all-ones field. -/
theorem c5_witness :
    ∃ d, decode_signal msg15 signedSignal4
        = some d ∧
      d.raw_value = 15 + (2 ^ 64 - 2 ^ signedSignal4.bit_length) ∧
      2 ^ 63 ≤ d.raw_value ∧
      d.physical_value = (d.raw_value : Rat) * signedSignal4.factor + signedSignal4.offset ∧
      (1 ≤ signedSignal4.factor → 0 ≤ signedSignal4.offset →
        ((2 : Rat) ^ 63 ≤ d.physical_value)) :=
  c5_signed_decode.1 msg15 signedSignal4 15
    rfl (by decide) (by decide) (by decide) (by decide)
/-- The 64-bit signed signal on which `encode_signal` hits its unguarded
shift. -/
def wideSignal64 : DbcSignal :=
  { name := "S64", start_bit := 0, bit_length := 64,
    byte_order := ByteOrder.Intel, value_type := ValueType.Signed,
    factor := 1, offset := 0, minimum := none, maximum := none,
    unit := none, multiplexor := none }

/-- C6 (failing input): at `bit_length = 64`, `factor = 1 ≠ 0`,
`offset = 0` and `physical_value = -1`, the raw value is negative, so
`encode_signal` evaluates `(1u64 << 64) - 1`: a shift overflow (panic in a
debug build; in release the masked shift turns the mask into `0`), not the
claimed panic-free two's-complement masking.  The checked model returns
`none` there. -/
theorem c6_encode_shift_overflow :
    encode_signal (List.replicate 8 0) wideSignal64 (-1) = none := by
  unfold encode_signal
  have hq : ((-1 : Rat) - wideSignal64.offset) / wideSignal64.factor = -1 := by
    norm_num [wideSignal64]
  rw [hq]
  rw [show i64Sat (ratTrunc (-1)) = -1 from by decide]
  rw [if_pos (by decide : (-1 : Int) < 0)]
  rw [if_neg (by decide : ¬ wideSignal64.bit_length < 64)]

/-- Per-signal decode over a message: a signal is omitted exactly when its
raw extraction fails, and the surviving signals keep the message's
definition order. -/
theorem filterMap_decode_names (msg : CanMessage) (sigs : List DbcSignal) :
    (sigs.filterMap (fun s => decode_signal msg s)).map (fun d => d.name) =
      (sigs.filter (fun s =>
        (extract_bits msg.data s.start_bit s.bit_length s.byte_order).isSome)).map
        (fun s => s.name) := by
  induction sigs with
  | nil => rfl
  | cons s rest ih =>
    by_cases h : (extract_bits msg.data s.start_bit s.bit_length s.byte_order).isSome
    · obtain ⟨rv, hrv⟩ := Option.isSome_iff_exists.mp h
      have hd : ∃ d, decode_signal msg s = some d ∧ d.name = s.name := by
        rw [decode_signal_eq_map, hrv]
        exact ⟨_, rfl, rfl⟩
      obtain ⟨d, hd1, hd2⟩ := hd
      rw [List.filterMap_cons, hd1]
      rw [List.filter_cons, if_pos h]
      simp [hd2, ih]
    · have hnone : decode_signal msg s = none :=
        (decode_signal_none_iff msg s).mpr (Option.not_isSome_iff_eq_none.mp h)
      rw [List.filterMap_cons, hnone]
      rw [List.filter_cons, if_neg (by simpa using h)]
      exact ih

/-- C10: `decode_message` returns `[]` when no document is loaded and when
no message definition matches the frame id; otherwise it decodes the
matching message's signals independently — each signal whose extraction
fails is silently omitted — and returns them in signal-definition order. -/
theorem c10_decode_message :
    (∀ msg : CanMessage, decode_message none msg = []) ∧
    (∀ (dbc : DbcFile) (msg : CanMessage), dbc.get_message msg.id = none →
      decode_message (some dbc) msg = []) ∧
    (∀ (dbc : DbcFile) (msg : CanMessage) (m : DbcMessage),
      dbc.get_message msg.id = some m →
      decode_message (some dbc) msg = m.signals.filterMap (fun s => decode_signal msg s) ∧
      (decode_message (some dbc) msg).map (fun d => d.name) =
        (m.signals.filter (fun s =>
          (extract_bits msg.data s.start_bit s.bit_length s.byte_order).isSome)).map
          (fun s => s.name)) := by
  refine ⟨fun msg => rfl, ?_, ?_⟩
  · intro dbc msg h
    show (match dbc.get_message msg.id with
      | none => ([] : List DecodedSignal)
      | some dbc_msg =>
        dbc_msg.signals.filterMap (fun signal => decode_signal msg signal)) = []
    rw [h]
  · intro dbc msg m h
    have h1 : decode_message (some dbc) msg =
        m.signals.filterMap (fun s => decode_signal msg s) := by
      show (match dbc.get_message msg.id with
        | none => ([] : List DecodedSignal)
        | some dbc_msg =>
          dbc_msg.signals.filterMap (fun signal => decode_signal msg signal)) = _
      rw [h]
    exact ⟨h1, by rw [h1, filterMap_decode_names]⟩

/-- The unsigned byte signal (factor 1) of the C10 witness document. -/
def witnessSignal : DbcSignal :=
  { name := "ByteSig", start_bit := 0, bit_length := 8,
    byte_order := ByteOrder.Intel, value_type := ValueType.Unsigned,
    factor := 1, offset := 0, minimum := none, maximum := none,
    unit := none, multiplexor := none }

/-- The message definition of the C10 witness document. -/
def witnessMessage : DbcMessage :=
  { id := 0x123, name := "M", size := 8, signals := [witnessSignal] }

/-- The one-message document of the C10 witness. -/
def witnessDbc : DbcFile :=
  DbcFile.add_message DbcFile.new witnessMessage

/-- The frame of the C10 witness. -/
def witnessMsg : CanMessage :=
  { timestamp := 5, bus := 0, id := 0x123, data := [100] }

/-- Witness for C10 at a loaded one-message document. -/
theorem c10_witness :
    decode_message (some witnessDbc) witnessMsg =
      (witnessDbc.get_message witnessMsg.id).elim []
        (fun m => m.signals.filterMap (fun s => decode_signal witnessMsg s)) ∧
    (decode_message (some witnessDbc) witnessMsg).map (fun d => d.name) = ["ByteSig"] := by
  obtain ⟨h1, h2⟩ := c10_decode_message.2.2 witnessDbc witnessMsg witnessMessage
    (by decide)
  refine ⟨?_, ?_⟩
  · rw [h1]
    rfl
  · rw [h2]
    decide
/-- The duplicate-id DBC text of C8. -/
def dupContent : String :=
  "BO_ 256 First: 8 Vector__XXX\nBO_ 256 Second: 8 Vector__XXX"

/-- C8: parsing always succeeds (the model is total, as the Rust parser
never returns `Err`); for every text, `get_message` reads the lookup that
is rebuilt from the ordered message list after all lines, so it maps an id
to the message of the LAST `BO_` record with that id.  On the concrete
duplicate-id text, the ordered list keeps both messages in source order,
the lookup yields the second, and serialization (which iterates the
ordered list) emits both `BO_` records exactly once each. -/
theorem c8_duplicate_ids :
    (∀ (content : String) (id : Nat),
      (DbcFile.parse content).get_message id =
        (DbcFile.parse content).messages.reverse.find? (fun m => m.id == id)) ∧
    (DbcFile.parse dupContent).messages.map (fun m => (m.id, m.name)) =
      [(256, "First"), (256, "Second")] ∧
    ((DbcFile.parse dupContent).get_message 256).map (fun m => m.name) = some "Second" ∧
    countOccs ("BO_ 256 First: 8 Vector__XXX\n".data)
      (DbcFile.parse dupContent).to_dbc_string.data = 1 ∧
    countOccs ("BO_ 256 Second: 8 Vector__XXX\n".data)
      (DbcFile.parse dupContent).to_dbc_string.data = 1 := by
  refine ⟨parse_get_message_eq_last, ?_, ?_, ?_, ?_⟩ <;> decide

/-- The document of the C9 round trip: version "1.0", one message
(id 0x100, "TestMessage", size 8) with one unsigned little-endian signal
at bits 0–7. -/
def roundtripSignal : DbcSignal :=
  { name := "Signal1", start_bit := 0, bit_length := 8,
    byte_order := ByteOrder.Intel, value_type := ValueType.Unsigned,
    factor := 1, offset := 0, minimum := none, maximum := none,
    unit := none, multiplexor := none }

/-- See `roundtripSignal`. -/
def roundtripDoc : DbcFile :=
  DbcFile.add_message { DbcFile.new with version := "1.0" }
    { id := 0x100, name := "TestMessage", size := 8, signals := [roundtripSignal] }

/-- Placeholder message for safe list indexing in C9's statement. -/
def emptyMsg : DbcMessage :=
  { id := 0, name := "", size := 0, signals := [] }

/-- C9: serializing the one-message document and re-parsing it with the
same parser yields version "1.0", exactly one message with id 0x100, and
exactly one signal in it (the serializer's boilerplate NS_/BS_/BU_
sections are re-parseable noise). -/
theorem c9_dbc_roundtrip :
    (DbcFile.parse roundtripDoc.to_dbc_string).version = "1.0" ∧
    (DbcFile.parse roundtripDoc.to_dbc_string).messages.length = 1 ∧
    ((DbcFile.parse roundtripDoc.to_dbc_string).messages.getD 0 emptyMsg).id = 0x100 ∧
    ((DbcFile.parse roundtripDoc.to_dbc_string).messages.getD 0 emptyMsg).signals.length
      = 1 := by
  decide
